import Mathlib

/-!
Shallow embedding of the Holiday_Project repository (src/app.py) and proofs
about its two components:

* `load_and_process_data` — the calendar builder (app.py lines 29–50):
  reads raw (date, holiday-label) rows, spans the full date range between
  the minimum and maximum input date, merges the rows onto the calendar,
  derives weekend / restricted-holiday / holiday / free flags.

* `get_global_rankings` — the window ranker (app.py lines 53–105):
  enumerates contiguous windows `[i, j]` with `i < j`, both endpoints free,
  breaking the inner scan as soon as the window's PTO cost exceeds the
  budget, skipping plain two-day weekends, and sorting the emitted records
  by efficiency (descending, infinity first) then duration (descending).

Dates are modelled as natural numbers counting days since 1970-01-01 (a
Thursday), so `weekday d = (d + 3) % 7` with Monday = 0, matching pandas.
Efficiency (a Python float, `inf` when the PTO cost is zero) is modelled
exactly as `Option ℚ`, with `none` standing for the infinite sentinel:
for the durations (≤ hundreds) and costs (≤ tens) the program handles,
distinct rationals `d₁/p₁ ≠ d₂/p₂` differ by at least `1/(p₁·p₂)`, far
above double rounding error, so float comparisons agree with the exact
rational ones.
-/

namespace Holiday

/-- One row of the processed dataframe built by `load_and_process_data`:
`date` (days since epoch), `is_weekend`, the `holiday` label (defaulted to
"Working Day"), `is_restricted`, `is_holiday`, `is_free`, `month`. -/
structure Day where
  date : Nat
  is_weekend : Bool
  holiday : String
  is_restricted : Bool
  is_holiday : Bool
  is_free : Bool
  month : Nat
deriving Repr, DecidableEq

instance : Inhabited Day := ⟨⟨0, false, "Working Day", false, false, false, 1⟩⟩

/-- One record appended by `get_global_rankings` (app.py lines 81–89):
Start Date, End Date, Duration, PTO Cost, Efficiency, Bridge Opportunity,
Month. `efficiency = none` models the float `inf` used when the PTO cost
is zero. -/
structure RankRow where
  startDate : Nat
  endDate : Nat
  duration : Nat
  ptoCost : Nat
  efficiency : Option ℚ
  isBridge : Bool
  month : Nat
deriving Repr, DecidableEq

/-- `df.iloc[i]`, with an out-of-range default (every use is in range). -/
def dayAt (days : List Day) (i : Nat) : Day := days.getD i default

/-- `df.iloc[i:j+1]` — the window's rows, indices `i` through `j`. -/
def slice (days : List Day) (i j : Nat) : List Day :=
  (days.drop i).take (j + 1 - i)

/-- `(~window["is_free"]).sum()` — the PTO cost of window `[i, j]`. -/
def leaveCost (days : List Day) (i j : Nat) : Nat :=
  (slice days i j).countP (fun d => !d.is_free)

/-- `window["is_holiday"].sum()` — holiday days inside window `[i, j]`. -/
def holidayCount (days : List Day) (i j : Nat) : Nat :=
  (slice days i j).countP (fun d => d.is_holiday)

/-- The guard of app.py line 72: skip plain 2-day weekends, i.e. windows
with `duration <= 2 and pto_needed == 0 and window["is_holiday"].sum() == 0`. -/
def plainWeekend (days : List Day) (i j : Nat) : Bool :=
  decide (j - i + 1 ≤ 2) && decide (leaveCost days i j = 0)
    && decide (holidayCount days i j = 0)

/-- The record dict appended at app.py lines 81–89 for window `[i, j]`. -/
def mkRecord (days : List Day) (i j : Nat) : RankRow :=
  { startDate := (dayAt days i).date
    endDate := (dayAt days j).date
    duration := j - i + 1
    ptoCost := leaveCost days i j
    efficiency :=
      if leaveCost days i j = 0 then none
      else some ((j - i + 1 : ℚ) / (leaveCost days i j : ℚ))
    isBridge := decide (leaveCost days i j = 1) && decide (4 ≤ j - i + 1)
    month := (dayAt days i).month }

/-- The inner loop of `get_global_rankings` (app.py lines 61–89) for a fixed
start index `i`, scanning `j, j+1, …` (the source starts at `j = i + 1`):
break as soon as `pto_needed > pto_limit`; when `days[j]` is free and the
window is not a plain 2-day weekend, append its record. The `fuel`
argument only bounds the recursion structurally; `innerScan` below always
supplies enough for the scan to reach the end of the sequence. -/
def innerScanFuel (days : List Day) (pto_limit i : Nat) :
    Nat → Nat → List RankRow
  | 0, _ => []
  | fuel + 1, j =>
    if j < days.length then
      if pto_limit < leaveCost days i j then []
      else
        (if (dayAt days j).is_free && !plainWeekend days i j
          then [mkRecord days i j] else [])
          ++ innerScanFuel days pto_limit i fuel (j + 1)
    else []

/-- The inner loop, started at index `j` with enough fuel to scan to the
end of the day sequence. -/
def innerScan (days : List Day) (pto_limit i j : Nat) : List RankRow :=
  innerScanFuel days pto_limit i (days.length - j) j

/-- The full enumeration of `get_global_rankings` before sorting
(app.py lines 57–89): every free start index `i`, inner scan from `i + 1`. -/
def enumWindows (days : List Day) (pto_limit : Nat) : List RankRow :=
  (List.range days.length).flatMap (fun i =>
    if (dayAt days i).is_free then innerScan days pto_limit i (i + 1) else [])

/-- The comparator implicit in
`sort_values(by=["Efficiency", "Duration"], ascending=[False, False])`
(app.py lines 96–99): `rankLE a b` holds when `a`'s sort key
`(efficiency, duration)` is lexicographically ≥ `b`'s, efficiency `none`
(infinity) on top. -/
def rankLE (a b : RankRow) : Bool :=
  match a.efficiency, b.efficiency with
  | none, none => decide (b.duration ≤ a.duration)
  | none, some _ => true
  | some _, none => false
  | some x, some y =>
      if x = y then decide (b.duration ≤ a.duration) else decide (y < x)

/-- `rankLE` as a relation, for `List.insertionSort`. -/
def rankRel (a b : RankRow) : Prop := rankLE a b = true

instance : DecidableRel rankRel := fun a b => by
  unfold rankRel; infer_instance

/-- `get_global_rankings(df, pto_limit)` (app.py lines 53–105): enumerate
the feasible windows, then sort by efficiency descending (infinity first)
and duration descending. An empty enumeration is returned as-is
(app.py lines 93–94). -/
def get_global_rankings (days : List Day) (pto_limit : Nat) : List RankRow :=
  List.insertionSort rankRel (enumWindows days pto_limit)

/-- Modelled from the spec: the naive enumeration it compares the early-
termination loop against — "every index pair (i, j) with i < j, both
endpoints free, leave cost <= budget, and the degenerate-window rule
applied", with no break. -/
def naiveWindows (days : List Day) (pto_limit : Nat) : List RankRow :=
  (List.range days.length).flatMap (fun i =>
    (List.range days.length).flatMap (fun j =>
      if i < j ∧ (dayAt days i).is_free = true ∧ (dayAt days j).is_free = true
          ∧ leaveCost days i j ≤ pto_limit ∧ plainWeekend days i j = false
        then [mkRecord days i j] else []))

/-! ### Calendar builder (`load_and_process_data`, app.py lines 29–50) -/

/-- One row of the raw CSV after `read_csv` / column normalisation /
`to_datetime`: a date (days since epoch) and a holiday label. -/
structure RawEntry where
  date : Nat
  holiday : String
deriving Repr, DecidableEq

/-- Errors of calendar construction. `valueError` models the pandas
`ValueError` raised by `pd.date_range` at app.py line 34 when either bound
is `NaT` (which is what `df["date"].min()` yields on an empty frame).
`emptyInput` — Modelled from the spec: the spec's distinguished
`EmptyInputError` from its error taxonomy; the code itself never raises it
and no such class exists in app.py. -/
inductive BuildError where
  | valueError (msg : String)
  | emptyInput
deriving Repr, DecidableEq

/-- `calendar["date"].dt.weekday` for pandas: Monday = 0 … Sunday = 6.
Day 0 (1970-01-01) was a Thursday, weekday 3. -/
def weekdayOf (d : Nat) : Nat := (d + 3) % 7

/-- Does the label contain the literal substring `(RH)`? This is
`df["holiday"].str.contains(r"\(RH\)", regex=True)` at app.py line 40:
the regex escapes both parentheses, so it matches the plain text. -/
def startsWithRH : List Char → Bool
  | '(' :: 'R' :: 'H' :: ')' :: _ => true
  | _ => false

def containsRH : List Char → Bool
  | [] => false
  | c :: rest => startsWithRH (c :: rest) || containsRH rest

/-- The civil month (1–12) of a days-since-epoch count, for
`calendar["date"].dt.strftime("%B")` (kept numeric; no claim reads it). -/
def civilMonth (d : Nat) : Nat :=
  let z := d + 719468
  let doe := z % 146097
  let yoe := (doe - doe / 1460 + doe / 36524 - doe / 146096) / 365
  let doy := doe - (365 * yoe + yoe / 4 - yoe / 100)
  let mp := (5 * doy + 2) / 153
  if mp < 10 then mp + 3 else mp - 9

/-- One calendar row after the merge and flag derivation (app.py lines
35–48). `lbl = none` models a left-merge miss (`NaN`, filled with
"Working Day" at line 39). -/
def mkDay (include_rh : Bool) (d : Nat) (lbl : Option String) : Day :=
  let holiday := lbl.getD "Working Day"
  let is_weekend := decide (weekdayOf d = 5) || decide (weekdayOf d = 6)
  let is_restricted := containsRH holiday.toList
  let is_holiday :=
    if include_rh then decide (holiday ≠ "Working Day")
    else decide (holiday ≠ "Working Day") && !is_restricted
  { date := d
    is_weekend := is_weekend
    holiday := holiday
    is_restricted := is_restricted
    is_holiday := is_holiday
    is_free := is_weekend || is_holiday
    month := civilMonth d }

/-- The left-merge of the raw rows onto one calendar date `d` (app.py
line 38): a date with no raw row becomes one `NaN`-labelled row (filled
with "Working Day"); a date with several raw rows is duplicated, exactly
as pandas `merge(how="left")` does. -/
def mergeRows (raw : List RawEntry) (include_rh : Bool) (d : Nat) : List Day :=
  match raw.filter (fun r => r.date = d) with
  | [] => [mkDay include_rh d none]
  | ms => ms.map (fun r => mkDay include_rh d (some r.holiday))

/-- `load_and_process_data` (app.py lines 29–50) on the parsed raw rows:
span `pd.date_range(min, max)`, left-merge the raw rows onto it, then
derive the flags. On an empty input the min/max are `NaT` and
`pd.date_range` raises its `ValueError`. -/
def load_and_process_data (raw : List RawEntry) (include_rh : Bool) :
    Except BuildError (List Day) :=
  match (raw.map (fun r => r.date)).min?, (raw.map (fun r => r.date)).max? with
  | some lo, some hi =>
      .ok ((List.range' lo (hi + 1 - lo)).flatMap (mergeRows raw include_rh))
  | _, _ => .error (.valueError "Neither start nor end can be NaT")

/-- The calendar produced on success, `[]` on failure (proof convenience). -/
def buildList (raw : List RawEntry) (include_rh : Bool) : List Day :=
  match load_and_process_data raw include_rh with
  | .ok l => l
  | .error _ => []

/-- Did `load_and_process_data` fail? -/
def buildFailed (raw : List RawEntry) (include_rh : Bool) : Bool :=
  match load_and_process_data raw include_rh with
  | .ok _ => false
  | .error _ => true

/-- `df["date"].min()` over the raw rows, defaulted (only read when the
input is non-empty). -/
def minOf (raw : List RawEntry) : Nat := ((raw.map (fun r => r.date)).min?).getD 0

/-- `df["date"].max()` over the raw rows, defaulted. -/
def maxOf (raw : List RawEntry) : Nat := ((raw.map (fun r => r.date)).max?).getD 0

/-! ### Concrete fixtures (dates are days since 1970-01-01; day 2 was a
Saturday) -/

/-- A plain Saturday–Sunday pair, no holidays: exactly the calendar the
builder yields for two "Working Day" rows on days 2 and 3. -/
def satSunPair : List Day :=
  [{ date := 2, is_weekend := true, holiday := "Working Day",
     is_restricted := false, is_holiday := false, is_free := true, month := 1 },
   { date := 3, is_weekend := true, holiday := "Working Day",
     is_restricted := false, is_holiday := false, is_free := true, month := 1 }]

/-- Three consecutive holidays (Thu, Fri, Sat), every day free. -/
def threeFree : List Day :=
  [{ date := 0, is_weekend := false, holiday := "Festival",
     is_restricted := false, is_holiday := true, is_free := true, month := 1 },
   { date := 1, is_weekend := false, holiday := "Festival",
     is_restricted := false, is_holiday := true, is_free := true, month := 1 },
   { date := 2, is_weekend := true, holiday := "Festival",
     is_restricted := false, is_holiday := true, is_free := true, month := 1 }]

/-- A single working day: a day sequence with no free day at all. -/
def noFreeDays : List Day :=
  [{ date := 0, is_weekend := false, holiday := "Working Day",
     is_restricted := false, is_holiday := false, is_free := false, month := 1 }]

/-- A well-formed raw input: two holiday rows on distinct dates 1 and 3. -/
def sampleRaw : List RawEntry :=
  [{ date := 1, holiday := "New Year (RH)" }, { date := 3, holiday := "Festival" }]

/-- A raw input with two rows on the same date. -/
def dupRaw : List RawEntry :=
  [{ date := 5, holiday := "Festival A" }, { date := 5, holiday := "Festival B" }]

/-! ### Lemmas about the enumeration -/

theorem dayAt_mem {days : List Day} {i : Nat} (h : i < days.length) :
    dayAt days i ∈ days := by
  unfold dayAt
  rw [List.getD_eq_getElem?_getD, List.getElem?_eq_getElem h]
  exact List.getElem_mem h

theorem mem_of_mem_slice {days : List Day} {i j : Nat} {d : Day}
    (h : d ∈ slice days i j) : d ∈ days := by
  unfold slice at h
  exact (List.drop_sublist i days).subset ((List.take_sublist _ _).subset h)

/-- The PTO cost of `[i, j]` is monotone in the right endpoint: growing the
window can only add non-free days. This is what makes the `break` at
app.py line 66 sound. -/
theorem leaveCost_mono (days : List Day) (i : Nat) {j j' : Nat} (h : j ≤ j') :
    leaveCost days i j ≤ leaveCost days i j' := by
  unfold leaveCost slice
  have h1 : j + 1 - i = min (j + 1 - i) (j' + 1 - i) := by omega
  rw [h1, ← List.take_take]
  exact (List.take_sublist _ _).countP_le _

theorem mem_takeWhile_range' {p : Nat → Bool}
    (hmono : ∀ a b : Nat, a ≤ b → p b = true → p a = true) :
    ∀ {m j0 j : Nat}, j ∈ List.range' j0 m → p j = true →
      j ∈ (List.range' j0 m).takeWhile p := by
  intro m
  induction m with
  | zero => intro j0 j hj _; simp [List.range'] at hj
  | succ m ih =>
    intro j0 j hj hp
    rw [List.range'_succ] at hj ⊢
    have hj0le : j0 ≤ j := by
      rcases List.mem_cons.1 hj with h | h
      · omega
      · rcases List.mem_range'.1 h with ⟨k, _, rfl⟩; omega
    rw [List.takeWhile_cons_of_pos (hmono j0 j hj0le hp)]
    rcases List.mem_cons.1 hj with h | h
    · exact h ▸ List.mem_cons_self _ _
    · exact List.mem_cons_of_mem _ (ih h hp)

/-- The inner scan, rewritten as a `takeWhile`-then-`filter` over the
remaining indices: take `j`s while the cost stays within budget, keep
those with a free right endpoint that are not plain weekends. -/
def scanSpec (days : List Day) (pto_limit i j0 : Nat) : List RankRow :=
  ((((List.range' j0 (days.length - j0)).takeWhile
      (fun j => decide (leaveCost days i j ≤ pto_limit))).filter
      (fun j => (dayAt days j).is_free && !plainWeekend days i j)).map
    (mkRecord days i))

theorem innerScanFuel_eq (days : List Day) (pto_limit i : Nat) :
    ∀ fuel j0, days.length ≤ j0 + fuel →
      innerScanFuel days pto_limit i fuel j0 = scanSpec days pto_limit i j0 := by
  intro fuel
  induction fuel with
  | zero =>
    intro j0 h
    have hc : days.length - j0 = 0 := by omega
    simp only [innerScanFuel]
    unfold scanSpec
    rw [hc]
    simp [List.range']
  | succ fuel ih =>
    intro j0 h
    simp only [innerScanFuel]
    unfold scanSpec
    by_cases hlt : j0 < days.length
    · have hc : days.length - j0 = (days.length - (j0 + 1)) + 1 := by omega
      rw [if_pos hlt, hc, List.range'_succ]
      by_cases hb : pto_limit < leaveCost days i j0
      · rw [if_pos hb,
          List.takeWhile_cons_of_neg (by simpa using hb)]
        simp
      · rw [if_neg hb, List.takeWhile_cons_of_pos (by simpa using Nat.not_lt.1 hb),
          List.filter_cons]
        have hrec := ih (j0 + 1) (by omega)
        unfold scanSpec at hrec
        rw [hrec]
        by_cases hf : (dayAt days j0).is_free && !plainWeekend days i j0
        · rw [if_pos hf, if_pos hf, List.map_cons]
          rfl
        · rw [if_neg hf, if_neg hf]
          simp
    · rw [if_neg hlt]
      have hc : days.length - j0 = 0 := by omega
      rw [hc]
      simp [List.range']

theorem innerScan_eq (days : List Day) (pto_limit i : Nat) :
    ∀ j0, innerScan days pto_limit i j0 = scanSpec days pto_limit i j0 :=
  fun j0 =>
    innerScanFuel_eq days pto_limit i (days.length - j0) j0 (by omega)

/-- Membership in the inner scan: exactly the windows `[i, j]` with
`j0 ≤ j < n`, cost within budget, free right endpoint, and not a plain
weekend (the `break` skips nothing feasible, by `leaveCost_mono`). -/
theorem mem_innerScan {days : List Day} {pto_limit i j0 : Nat} {w : RankRow} :
    w ∈ innerScan days pto_limit i j0 ↔
      ∃ j, j0 ≤ j ∧ j < days.length ∧ leaveCost days i j ≤ pto_limit
        ∧ (dayAt days j).is_free = true ∧ plainWeekend days i j = false
        ∧ w = mkRecord days i j := by
  rw [innerScan_eq]
  unfold scanSpec
  rw [List.mem_map]
  constructor
  · rintro ⟨j, hj, rfl⟩
    rw [List.mem_filter] at hj
    obtain ⟨hjt, hq⟩ := hj
    have hp := List.mem_takeWhile_imp hjt
    have hjr : j ∈ List.range' j0 (days.length - j0) :=
      ((List.range' j0 (days.length - j0)).takeWhile_sublist _).subset hjt
    rcases List.mem_range'.1 hjr with ⟨k, hk, rfl⟩
    simp only [Bool.and_eq_true] at hq
    obtain ⟨hfree, hplain⟩ := hq
    exact ⟨j0 + 1 * k, le_add_of_nonneg_right (Nat.zero_le _), by omega,
      by simpa using hp, hfree, by simpa using hplain, rfl⟩
  · rintro ⟨j, hj0, hjn, hcost, hfree, hplain, rfl⟩
    refine ⟨j, ?_, rfl⟩
    rw [List.mem_filter]
    constructor
    · refine mem_takeWhile_range' ?_ ?_ (by simpa using hcost)
      · intro a b hab hb
        rw [decide_eq_true_iff] at hb ⊢
        exact le_trans (leaveCost_mono days i hab) hb
      · exact List.mem_range'.2 ⟨j - j0, by omega, by omega⟩
    · rw [hfree, hplain]
      rfl

/-- Membership in the (unsorted) enumeration: exactly the windows of index
pairs `i < j` inside the sequence with both endpoints free, cost within
budget, and not a plain weekend. -/
theorem mem_enumWindows {days : List Day} {pto_limit : Nat} {w : RankRow} :
    w ∈ enumWindows days pto_limit ↔
      ∃ i j, i < j ∧ j < days.length
        ∧ (dayAt days i).is_free = true ∧ (dayAt days j).is_free = true
        ∧ leaveCost days i j ≤ pto_limit ∧ plainWeekend days i j = false
        ∧ w = mkRecord days i j := by
  unfold enumWindows
  rw [List.mem_flatMap]
  constructor
  · rintro ⟨i, hi, hw⟩
    by_cases hf : (dayAt days i).is_free = true
    · rw [if_pos hf] at hw
      rcases mem_innerScan.1 hw with ⟨j, hj0, hjn, hcost, hfree, hplain, rfl⟩
      exact ⟨i, j, by omega, hjn, hf, hfree, hcost, hplain, rfl⟩
    · rw [if_neg hf] at hw
      simp at hw
  · rintro ⟨i, j, hij, hjn, hfi, hfj, hcost, hplain, rfl⟩
    refine ⟨i, List.mem_range.2 (by omega), ?_⟩
    rw [if_pos hfi]
    exact mem_innerScan.2 ⟨j, by omega, hjn, hcost, hfj, hplain, rfl⟩

/-- Membership in the naive enumeration is characterised by the same
condition. -/
theorem mem_naiveWindows {days : List Day} {pto_limit : Nat} {w : RankRow} :
    w ∈ naiveWindows days pto_limit ↔
      ∃ i j, i < j ∧ j < days.length
        ∧ (dayAt days i).is_free = true ∧ (dayAt days j).is_free = true
        ∧ leaveCost days i j ≤ pto_limit ∧ plainWeekend days i j = false
        ∧ w = mkRecord days i j := by
  unfold naiveWindows
  rw [List.mem_flatMap]
  constructor
  · rintro ⟨i, _, hw⟩
    rw [List.mem_flatMap] at hw
    obtain ⟨j, hj, hw⟩ := hw
    by_cases hc : i < j ∧ (dayAt days i).is_free = true
        ∧ (dayAt days j).is_free = true ∧ leaveCost days i j ≤ pto_limit
        ∧ plainWeekend days i j = false
    · rw [if_pos hc] at hw
      obtain ⟨h1, h2, h3, h4, h5⟩ := hc
      rcases List.mem_singleton.1 hw with rfl
      exact ⟨i, j, h1, List.mem_range.1 hj, h2, h3, h4, h5, rfl⟩
    · rw [if_neg hc] at hw
      simp at hw
  · rintro ⟨i, j, hij, hjn, hfi, hfj, hcost, hplain, rfl⟩
    refine ⟨i, List.mem_range.2 (by omega), ?_⟩
    rw [List.mem_flatMap]
    refine ⟨j, List.mem_range.2 hjn, ?_⟩
    rw [if_pos ⟨hij, hfi, hfj, hcost, hplain⟩]
    exact List.mem_singleton.2 rfl

/-- Membership in the final (sorted) ranking coincides with membership in
the enumeration. -/
theorem mem_rankings {days : List Day} {pto_limit : Nat} {w : RankRow} :
    w ∈ get_global_rankings days pto_limit ↔
      ∃ i j, i < j ∧ j < days.length
        ∧ (dayAt days i).is_free = true ∧ (dayAt days j).is_free = true
        ∧ leaveCost days i j ≤ pto_limit ∧ plainWeekend days i j = false
        ∧ w = mkRecord days i j := by
  unfold get_global_rankings
  rw [List.mem_insertionSort]
  exact mem_enumWindows

/-! ### The sort comparator -/

theorem rankLE_none_none {a b : RankRow} (ha : a.efficiency = none)
    (hb : b.efficiency = none) :
    rankLE a b = decide (b.duration ≤ a.duration) := by
  unfold rankLE; rw [ha, hb]

theorem rankLE_none_some {a b : RankRow} {y : ℚ} (ha : a.efficiency = none)
    (hb : b.efficiency = some y) : rankLE a b = true := by
  unfold rankLE; rw [ha, hb]

theorem rankLE_some_none {a b : RankRow} {x : ℚ} (ha : a.efficiency = some x)
    (hb : b.efficiency = none) : rankLE a b = false := by
  unfold rankLE; rw [ha, hb]

theorem rankLE_some_some {a b : RankRow} {x y : ℚ} (ha : a.efficiency = some x)
    (hb : b.efficiency = some y) :
    rankLE a b
      = if x = y then decide (b.duration ≤ a.duration) else decide (y < x) := by
  unfold rankLE; rw [ha, hb]

theorem rankLE_total (a b : RankRow) : rankLE a b = true ∨ rankLE b a = true := by
  rcases ha : a.efficiency with _ | x <;> rcases hb : b.efficiency with _ | y
  · rw [rankLE_none_none ha hb, rankLE_none_none hb ha]
    simp; omega
  · rw [rankLE_none_some ha hb]; left; rfl
  · rw [rankLE_none_some hb ha]; right; rfl
  · rw [rankLE_some_some ha hb, rankLE_some_some hb ha]
    by_cases hxy : x = y
    · subst hxy
      rw [if_pos rfl, if_pos rfl]
      simp; omega
    · rw [if_neg hxy, if_neg (Ne.symm hxy)]
      rcases lt_or_gt_of_ne hxy with h | h
      · right; simpa using h
      · left; simpa using h

theorem rankLE_trans {a b c : RankRow} (hab : rankLE a b = true)
    (hbc : rankLE b c = true) : rankLE a c = true := by
  rcases ha : a.efficiency with _ | x <;> rcases hb : b.efficiency with _ | y
    <;> rcases hc : c.efficiency with _ | z
  · rw [rankLE_none_none ha hb] at hab
    rw [rankLE_none_none hb hc] at hbc
    rw [rankLE_none_none ha hc]
    simp at hab hbc ⊢; omega
  · rw [rankLE_none_some ha hc]
  · rw [rankLE_none_none ha hc]
    rw [rankLE_some_none hb hc] at hbc
    exact absurd hbc (by simp)
  · rw [rankLE_none_some ha hc]
  · rw [rankLE_some_none ha hb] at hab
    exact absurd hab (by simp)
  · rw [rankLE_some_none ha hb] at hab
    exact absurd hab (by simp)
  · rw [rankLE_some_none hb hc] at hbc
    exact absurd hbc (by simp)
  · rw [rankLE_some_some ha hb] at hab
    rw [rankLE_some_some hb hc] at hbc
    rw [rankLE_some_some ha hc]
    by_cases hxy : x = y
    · subst hxy
      rw [if_pos rfl] at hab
      by_cases hxz : x = z
      · subst hxz
        rw [if_pos rfl] at hbc ⊢
        simp at hab hbc ⊢; omega
      · rw [if_neg hxz] at hbc ⊢
        exact hbc
    · rw [if_neg hxy] at hab
      simp at hab
      by_cases hyz : y = z
      · subst hyz
        rw [if_neg hxy]
        simpa using hab
      · rw [if_neg hyz] at hbc
        simp at hbc
        have hzx : z < x := lt_trans hbc hab
        rw [if_neg (ne_of_gt hzx)]
        simpa using hzx

instance : IsTotal RankRow rankRel := ⟨rankLE_total⟩

instance : IsTrans RankRow rankRel := ⟨fun _ _ _ => rankLE_trans⟩

/-- The output of `get_global_rankings` is sorted under the comparator of
`sort_values(by=["Efficiency", "Duration"], ascending=[False, False])`. -/
theorem sorted_rankings (days : List Day) (pto_limit : Nat) :
    (get_global_rankings days pto_limit).Sorted rankRel :=
  List.sorted_insertionSort rankRel _

/-- For records in the output, the infinite-efficiency sentinel appears
exactly on the zero-PTO-cost windows. -/
theorem eff_none_iff {days : List Day} {pto_limit : Nat} {w : RankRow}
    (hw : w ∈ get_global_rankings days pto_limit) :
    w.efficiency = none ↔ w.ptoCost = 0 := by
  rcases mem_rankings.1 hw with ⟨i, j, _, _, _, _, _, _, rfl⟩
  unfold mkRecord
  by_cases h : leaveCost days i j = 0
  · simp [h]
  · simp [h]

/-! ### The claims -/

/-- Claim C1: every Window returned by `get_global_rankings` for budget `b`
has PTO cost at most `b`, and the day at its start date and the day at its
end date are both free. -/
theorem claim_C1_budget_and_free_endpoints (days : List Day) (b : Nat)
    (w : RankRow) (hw : w ∈ get_global_rankings days b) :
    w.ptoCost ≤ b
      ∧ (∃ d ∈ days, d.date = w.startDate ∧ d.is_free = true)
      ∧ (∃ d ∈ days, d.date = w.endDate ∧ d.is_free = true) := by
  rcases mem_rankings.1 hw with ⟨i, j, hij, hjn, hfi, hfj, hcost, _, rfl⟩
  exact ⟨hcost,
    ⟨dayAt days i, dayAt_mem (by omega), rfl, hfi⟩,
    ⟨dayAt days j, dayAt_mem hjn, rfl, hfj⟩⟩

theorem claim_C1_witness : (mkRecord threeFree 0 2).ptoCost ≤ 0 :=
  (claim_C1_budget_and_free_endpoints threeFree 0 (mkRecord threeFree 0 2)
    (by decide)).1

/-- Claim C2: the early-termination enumeration (breaking the inner loop as
soon as the leave cost exceeds the budget) produces the same set of
windows as the naive enumeration over all pairs `i < j` with free
endpoints, cost within budget, and the degenerate-window rule; the break
never skips a feasible window because the leave cost is monotone in `j`. -/
theorem claim_C2_break_equals_naive (days : List Day) (b : Nat)
    (w : RankRow) : w ∈ enumWindows days b ↔ w ∈ naiveWindows days b :=
  mem_enumWindows.trans mem_naiveWindows.symm

/-- Claim C3: the returned sequence is sorted by efficiency descending
(primary) and duration descending (secondary); in particular a window
with the infinite-efficiency sentinel (equivalently, with `ptoCost = 0`)
never appears after one with finite efficiency. -/
theorem claim_C3_sorted_by_efficiency_then_duration (days : List Day)
    (b : Nat) :
    ((get_global_rankings days b).Pairwise (fun a c =>
        (a.efficiency = none ∧ c.efficiency ≠ none)
        ∨ (∃ x y : ℚ, a.efficiency = some x ∧ c.efficiency = some y ∧ y < x)
        ∨ (a.efficiency = c.efficiency ∧ c.duration ≤ a.duration)))
      ∧ ((get_global_rankings days b).Pairwise (fun a c =>
        c.ptoCost = 0 → a.ptoCost = 0)) := by
  constructor
  · refine (sorted_rankings days b).imp ?_
    intro a c hac
    unfold rankRel at hac
    rcases ha : a.efficiency with _ | x <;> rcases hc : c.efficiency with _ | y
    · rw [rankLE_none_none ha hc] at hac
      right; right
      exact ⟨rfl, by simpa using hac⟩
    · left
      exact ⟨rfl, by simp⟩
    · rw [rankLE_some_none ha hc] at hac
      exact absurd hac (by simp)
    · rw [rankLE_some_some ha hc] at hac
      by_cases hxy : x = y
      · subst hxy
        rw [if_pos rfl] at hac
        right; right
        exact ⟨rfl, by simpa using hac⟩
      · rw [if_neg hxy] at hac
        right; left
        exact ⟨x, y, rfl, rfl, by simpa using hac⟩
  · refine List.Pairwise.imp_of_mem ?_ (sorted_rankings days b)
    intro a c hma hmc hac hc0
    unfold rankRel at hac
    have hceff : c.efficiency = none := (eff_none_iff hmc).2 hc0
    refine (eff_none_iff hma).1 ?_
    rcases ha : a.efficiency with _ | x
    · rfl
    · rw [rankLE_some_none ha hceff] at hac
      exact absurd hac (by simp)

/-- Claim C4: a returned Window is flagged as a bridge opportunity exactly
when its PTO cost is 1 and its duration is at least 4. -/
theorem claim_C4_bridge_iff (days : List Day) (b : Nat) (w : RankRow)
    (hw : w ∈ get_global_rankings days b) :
    w.isBridge = true ↔ (w.ptoCost = 1 ∧ 4 ≤ w.duration) := by
  rcases mem_rankings.1 hw with ⟨i, j, _, _, _, _, _, _, rfl⟩
  unfold mkRecord
  simp

theorem claim_C4_witness :
    (mkRecord threeFree 0 2).isBridge = true
      ↔ ((mkRecord threeFree 0 2).ptoCost = 1
          ∧ 4 ≤ (mkRecord threeFree 0 2).duration) :=
  claim_C4_bridge_iff threeFree 0 (mkRecord threeFree 0 2) (by decide)

/-- Claim C5: no returned Window has duration 1; no returned Window has
duration at most 2, PTO cost 0, and zero holiday days inside its span;
and on a single plain Saturday–Sunday pair with budget 0 the result is
empty. -/
theorem claim_C5_degenerate_windows_suppressed :
    (∀ (days : List Day) (b : Nat) (w : RankRow),
      w ∈ get_global_rankings days b →
        w.duration ≠ 1
          ∧ ∃ i j, i < j ∧ j < days.length ∧ w = mkRecord days i j
              ∧ ¬(w.duration ≤ 2 ∧ w.ptoCost = 0 ∧ holidayCount days i j = 0))
      ∧ get_global_rankings satSunPair 0 = [] := by
  constructor
  · intro days b w hw
    rcases mem_rankings.1 hw with ⟨i, j, hij, hjn, _, _, _, hplain, rfl⟩
    constructor
    · show j - i + 1 ≠ 1
      omega
    · refine ⟨i, j, hij, hjn, rfl, ?_⟩
      rintro ⟨h1, h2, h3⟩
      have hd : (mkRecord days i j).duration = j - i + 1 := rfl
      have hp : (mkRecord days i j).ptoCost = leaveCost days i j := rfl
      rw [hd] at h1
      rw [hp] at h2
      unfold plainWeekend at hplain
      simp [h1, h2, h3] at hplain
  · decide

theorem claim_C5_witness : (mkRecord threeFree 0 2).duration ≠ 1 :=
  (claim_C5_degenerate_windows_suppressed.1 threeFree 0 (mkRecord threeFree 0 2)
    (by decide)).1

/-- Claim C6: enlarging the budget never removes a returned Window — every
Window returned for budget `b1 ≤ b2` is also returned for budget `b2`. -/
theorem claim_C6_monotone_in_budget (days : List Day) (b1 b2 : Nat)
    (hb : b1 ≤ b2) (w : RankRow) (hw : w ∈ get_global_rankings days b1) :
    w ∈ get_global_rankings days b2 := by
  rcases mem_rankings.1 hw with ⟨i, j, hij, hjn, hfi, hfj, hcost, hplain, rfl⟩
  exact mem_rankings.2 ⟨i, j, hij, hjn, hfi, hfj, le_trans hcost hb, hplain, rfl⟩

theorem claim_C6_witness :
    mkRecord threeFree 0 2 ∈ get_global_rankings threeFree 5 :=
  claim_C6_monotone_in_budget threeFree 0 5 (by decide)
    (mkRecord threeFree 0 2) (by decide)

/-- Claim C10: on an empty day sequence, and likewise on one with no free
day at all, `get_global_rankings` returns the empty sequence for every
budget (the embedding is a total function, so no error is raised). -/
theorem claim_C10_empty_inputs_give_empty_output :
    (∀ b : Nat, get_global_rankings [] b = [])
      ∧ ∀ (days : List Day) (b : Nat),
          days.all (fun d => !d.is_free) = true →
            get_global_rankings days b = [] := by
  constructor
  · intro b
    rfl
  · intro days b hall
    have he : enumWindows days b = [] := by
      unfold enumWindows
      rw [List.flatMap_eq_nil_iff]
      intro i hi
      have hfree : (dayAt days i).is_free = false := by
        have := List.all_eq_true.1 hall (dayAt days i)
          (dayAt_mem (List.mem_range.1 hi))
        simpa using this
      rw [if_neg (by simp [hfree])]
    unfold get_global_rankings
    rw [he]
    rfl

theorem claim_C10_witness : get_global_rankings noFreeDays 7 = [] :=
  claim_C10_empty_inputs_give_empty_output.2 noFreeDays 7 (by decide)

/-- On an all-free day sequence every window has PTO cost zero. -/
theorem leaveCost_eq_zero_of_all_free {days : List Day}
    (hfree : days.all (fun d => d.is_free) = true) (i j : Nat) :
    leaveCost days i j = 0 := by
  unfold leaveCost
  rw [List.countP_eq_zero]
  intro d hd
  have := List.all_eq_true.1 hfree d (mem_of_mem_slice hd)
  simp_all

/-- Claim C8, as refuted and amended: the original claim says the output is
exactly one whole-range window.  In fact the code emits every
non-degenerate sub-window; what holds is that every returned window has
PTO cost 0 (infinite efficiency) and the top-ranked window spans the
whole range. Stated for sequences of length ≥ 3, where the whole-range
window is never suppressed by the plain-weekend rule. -/
theorem claim_C8_amended (days : List Day) (b : Nat)
    (hfree : days.all (fun d => d.is_free) = true)
    (hlen : 3 ≤ days.length) :
    get_global_rankings days b ≠ []
      ∧ (∀ w ∈ get_global_rankings days b, w.ptoCost = 0 ∧ w.efficiency = none)
      ∧ (get_global_rankings days b).head?
          = some (mkRecord days 0 (days.length - 1))
      ∧ (mkRecord days 0 (days.length - 1)).startDate = (dayAt days 0).date
      ∧ (mkRecord days 0 (days.length - 1)).endDate
          = (dayAt days (days.length - 1)).date := by
  have hcost0 := leaveCost_eq_zero_of_all_free hfree
  have hfreeAt : ∀ i, i < days.length → (dayAt days i).is_free = true :=
    fun i hi => List.all_eq_true.1 hfree (dayAt days i) (dayAt_mem hi)
  have hplain : plainWeekend days 0 (days.length - 1) = false := by
    unfold plainWeekend
    have h2 : (decide (days.length - 1 - 0 + 1 ≤ 2)) = false := by
      rw [decide_eq_false_iff_not]
      omega
    rw [h2]
    rfl
  have hwhole : mkRecord days 0 (days.length - 1)
      ∈ get_global_rankings days b :=
    mem_rankings.2 ⟨0, days.length - 1, by omega, by omega,
      hfreeAt 0 (by omega), hfreeAt (days.length - 1) (by omega),
      by rw [hcost0]; exact Nat.zero_le b, hplain, rfl⟩
  have hall : ∀ w ∈ get_global_rankings days b,
      w.ptoCost = 0 ∧ w.efficiency = none := by
    intro w hw
    rcases mem_rankings.1 hw with ⟨i, j, _, _, _, _, _, _, rfl⟩
    constructor
    · exact hcost0 i j
    · unfold mkRecord
      simp [hcost0 i j]
  refine ⟨List.ne_nil_of_mem hwhole, hall, ?_, rfl, rfl⟩
  rcases hout : get_global_rankings days b with _ | ⟨w0, rest⟩
  · rw [hout] at hwhole
    simp at hwhole
  · have hsorted := sorted_rankings days b
    rw [hout] at hsorted hwhole
    have hw0mem : w0 ∈ get_global_rankings days b := by
      rw [hout]; exact List.mem_cons_self _ _
    rcases List.mem_cons.1 hwhole with heq | hmem
    · rw [heq]
      rfl
    · have hrel : rankRel w0 (mkRecord days 0 (days.length - 1)) :=
        List.rel_of_sorted_cons hsorted _ hmem
      unfold rankRel at hrel
      have hw0eff : w0.efficiency = none := (hall w0 hw0mem).2
      have hwheff : (mkRecord days 0 (days.length - 1)).efficiency = none := by
        unfold mkRecord
        simp [hcost0 0 (days.length - 1)]
      rw [rankLE_none_none hw0eff hwheff] at hrel
      have hwhd : (mkRecord days 0 (days.length - 1)).duration
          = days.length - 1 - 0 + 1 := rfl
      have hdur : days.length ≤ w0.duration := by
        have := of_decide_eq_true hrel
        rw [hwhd] at this
        omega
      rcases mem_rankings.1 hw0mem with ⟨i, j, hij, hjn, _, _, _, _, hw0⟩
      have hdur' : w0.duration = j - i + 1 := by rw [hw0]; rfl
      have hi0 : i = 0 := by omega
      have hjl : j = days.length - 1 := by omega
      rw [hw0, hi0, hjl]
      rfl

/-- Claim C8, counterexample to the original statement: three consecutive
all-free holidays yield three ranked windows, not exactly one. -/
theorem claim_C8_counterexample :
    threeFree.all (fun d => d.is_free) = true
      ∧ (get_global_rankings threeFree 0).length = 3
      ∧ (get_global_rankings threeFree 0).length ≠ 1 := by
  decide

theorem claim_C8_witness :
    (get_global_rankings threeFree 0).head?
      = some (mkRecord threeFree 0 (threeFree.length - 1)) :=
  (claim_C8_amended threeFree 0 (by decide) (by decide)).2.2.1

/-! ### Claims about the calendar builder -/

/-- With pairwise-distinct raw dates, at most one raw row matches any
date. -/
theorem filter_date_len_le_one {raw : List RawEntry}
    (hnd : (raw.map (fun r => r.date)).Nodup) (d : Nat) :
    (raw.filter (fun r => r.date = d)).length ≤ 1 := by
  have hcount : (raw.map (fun r => r.date)).count d ≤ 1 :=
    List.nodup_iff_count_le_one.1 hnd d
  rw [List.count, List.countP_map] at hcount
  rw [← List.countP_eq_length_filter]
  calc List.countP (fun r => decide (r.date = d)) raw
      = List.countP ((fun x => x == d) ∘ fun r => r.date) raw := by
        apply List.countP_congr
        intro r _
        constructor
        · intro h
          simpa using of_decide_eq_true h
        · intro h
          simp at h
          exact decide_eq_true h
    _ ≤ 1 := hcount

/-- With pairwise-distinct raw dates, the merged rows for date `d` are a
single calendar row carrying date `d`. -/
theorem merged_dates_eq {raw : List RawEntry} (rh : Bool)
    (hnd : (raw.map (fun r => r.date)).Nodup) (d : Nat) :
    (mergeRows raw rh d).map (fun x => x.date) = [d] := by
  unfold mergeRows
  cases hms : raw.filter (fun r => r.date = d) with
  | nil => simp [mkDay]
  | cons r rs =>
    have hlen := filter_date_len_le_one hnd d
    rw [hms] at hlen
    have hrs : rs = [] := by
      rw [List.length_cons] at hlen
      exact List.length_eq_zero.1 (by omega)
    subst hrs
    simp [mkDay]

/-- Claim C7, as refuted and amended: the original claim is stated for
every non-empty raw input, but pandas `merge(how="left")` duplicates a
calendar date that occurs in several raw rows, so the no-duplicates
invariant requires pairwise-distinct input dates. Under that hypothesis
the calendar succeeds, its dates are exactly the contiguous range from
the minimum to the maximum input date in ascending order, and its length
is `max - min + 1`. -/
theorem claim_C7_amended (raw : List RawEntry) (rh : Bool)
    (hne : raw ≠ []) (hnd : (raw.map (fun r => r.date)).Nodup) :
    buildFailed raw rh = false
      ∧ (buildList raw rh).map (fun d => d.date)
          = List.range' (minOf raw) (maxOf raw + 1 - minOf raw)
      ∧ (buildList raw rh).length = maxOf raw - minOf raw + 1
      ∧ List.Pairwise (fun a b : Day => a.date < b.date) (buildList raw rh) := by
  obtain ⟨lo, hlo⟩ : ∃ lo, (raw.map (fun r => r.date)).min? = some lo := by
    cases hraw : raw with
    | nil => exact absurd hraw hne
    | cons x xs => exact ⟨_, rfl⟩
  obtain ⟨hi, hhi⟩ : ∃ hi, (raw.map (fun r => r.date)).max? = some hi := by
    cases hraw : raw with
    | nil => exact absurd hraw hne
    | cons x xs => exact ⟨_, rfl⟩
  have hminOf : minOf raw = lo := by unfold minOf; rw [hlo]; rfl
  have hmaxOf : maxOf raw = hi := by unfold maxOf; rw [hhi]; rfl
  have hlo' := List.min?_eq_some_iff'.1 hlo
  have hhi' := List.max?_eq_some_iff'.1 hhi
  have hlohi : lo ≤ hi := hlo'.2 hi hhi'.1
  have hload : load_and_process_data raw rh
      = .ok ((List.range' lo (hi + 1 - lo)).flatMap (mergeRows raw rh)) := by
    unfold load_and_process_data
    rw [hlo, hhi]
  have hbuild : buildList raw rh
      = (List.range' lo (hi + 1 - lo)).flatMap (mergeRows raw rh) := by
    unfold buildList
    rw [hload]
  have hmap : (buildList raw rh).map (fun d => d.date)
      = List.range' lo (hi + 1 - lo) := by
    rw [hbuild]
    rw [List.map_flatMap]
    calc (List.range' lo (hi + 1 - lo)).flatMap (fun d =>
          (mergeRows raw rh d).map (fun x => x.date))
        = (List.range' lo (hi + 1 - lo)).flatMap (fun d => [d]) := by
          unfold List.flatMap
          exact congrArg List.flatten
            (List.map_congr_left (fun d _ => merged_dates_eq rh hnd d))
      _ = List.range' lo (hi + 1 - lo) := List.flatMap_singleton' _
  refine ⟨?_, ?_, ?_, ?_⟩
  · unfold buildFailed
    rw [hload]
  · rw [hmap, hminOf, hmaxOf]
  · have := congrArg List.length hmap
    rw [List.length_map, List.length_range'] at this
    rw [this, hminOf, hmaxOf]
    omega
  · have hpl : ((buildList raw rh).map (fun d => d.date)).Pairwise
        (fun a b : Nat => a < b) := by
      rw [hmap]
      exact List.pairwise_lt_range' lo (hi + 1 - lo)
    exact List.pairwise_map.1 hpl

/-- Claim C7, counterexample to the original statement: two raw rows on
the same date 5 produce a two-row calendar with a duplicated date, where
the claim requires exactly one Day (`max - min + 1 = 1`). -/
theorem claim_C7_counterexample :
    (buildList dupRaw true).length = 2
      ∧ maxOf dupRaw - minOf dupRaw + 1 = 1
      ∧ ¬ ((buildList dupRaw true).map (fun d => d.date)).Nodup := by
  decide

theorem claim_C7_witness :
    buildFailed sampleRaw true = false
      ∧ (buildList sampleRaw true).length = maxOf sampleRaw - minOf sampleRaw + 1 :=
  ⟨(claim_C7_amended sampleRaw true (by decide) (by decide)).1,
    (claim_C7_amended sampleRaw true (by decide) (by decide)).2.2.1⟩

/-- Claim C9, as refuted and amended: on empty raw input the builder does
fail before producing a calendar, but with the generic `ValueError`
raised by `pd.date_range` on `NaT` bounds — there is no distinguished
`EmptyInputError` anywhere in the code. -/
theorem claim_C9_amended (rh : Bool) :
    load_and_process_data [] rh
      = Except.error (BuildError.valueError "Neither start nor end can be NaT") :=
  rfl

/-- Claim C9, counterexample to the original statement: the error produced
on empty input is not the spec's `EmptyInputError`. -/
theorem claim_C9_counterexample :
    load_and_process_data [] true
        = Except.error (BuildError.valueError "Neither start nor end can be NaT")
      ∧ BuildError.valueError "Neither start nor end can be NaT"
          ≠ BuildError.emptyInput :=
  ⟨rfl, by decide⟩

